import Mathlib

/-!
Verification development for GoVaultFS, a peer-to-peer content-addressable
storage node written in Go.

The Go sources are shallowly embedded: byte streams become `List Nat`
(each entry a byte value), `io.Reader`/`io.Writer` pairs become explicit
list arguments and results, fallible operations return `Option`, and the
filesystem becomes a partial map from path strings to file contents.
Machine integers are modelled as `Nat` with explicit `% 2 ^ w` where the
Go code wraps.

Covered components:
  * `crypto.go` — AES-CTR stream encryption (`copyStream`, `copyEncrypt`,
    `copyDecrypt`).  The AES block function itself comes from Go's
    standard library (`crypto/aes`); the embedding keeps the block
    cipher abstract, exactly as Go's `cipher.NewCTR` does (it accepts
    any `cipher.Block`), while modelling the CTR counter sequence and
    keystream XOR concretely.
  * `store.go` — the CAS store: `CASPathTransformFunc` (SHA-1 based path
    derivation, with SHA-1 implemented concretely below), `PathKey`,
    `Has`, `Write`, `WriteDecrypt`, `Read`, `Delete`.
  * `p2p/encoding.go`, `p2p/message.go`, `p2p/tcp_transport.go` — the
    `DefaultDecoder` and the per-connection read loop, embedded as a
    trace-producing function.
  * `server.go` — `FileServer.Get` and `FileServer.handleMessageStoreFile`.
-/

namespace GoVaultFS

set_option maxRecDepth 100000

/-- Bytes are modelled as natural numbers; well-formed bytes are `< 256`. -/
abbrev Byte := Nat

/-- Big-endian interpretation of a byte list as a natural number. -/
def bytesToNatBE (l : List Byte) : Nat :=
  l.foldl (fun acc b => acc * 256 + b) 0

/-- Big-endian encoding of a natural number into exactly `n` bytes. -/
def natToBytesBE : Nat → Nat → List Byte
  | 0, _ => []
  | n + 1, v => natToBytesBE n (v / 256) ++ [v % 256]

/-- Every entry produced by `natToBytesBE` is a byte value. -/
theorem natToBytesBE_mem_lt (n v : Nat) : ∀ x ∈ natToBytesBE n v, x < 256 := by
  induction n generalizing v with
  | zero => intro x hx; simp [natToBytesBE] at hx
  | succ n ih =>
    intro x hx
    simp only [natToBytesBE, List.mem_append, List.mem_singleton] at hx
    rcases hx with hx | hx
    · exact ih _ x hx
    · subst hx; exact Nat.mod_lt _ (by omega)

/-- `natToBytesBE n v` has length `n`. -/
theorem natToBytesBE_length (n v : Nat) : (natToBytesBE n v).length = n := by
  induction n generalizing v with
  | zero => simp [natToBytesBE]
  | succ n ih => simp [natToBytesBE, ih]

/-! ## crypto.go: AES-CTR stream cipher

`copyEncrypt`/`copyDecrypt` build a `cipher.Stream` with
`cipher.NewCTR(block, iv)` where `block` is the AES block cipher for the
key.  The embedding abstracts the block function (`BlockCipher`), keeps
the key-length check of `aes.NewCipher` concrete, and models the CTR
keystream: block `j` of the keystream is the block encryption of the
initial counter (the IV, read as a 128-bit big-endian integer)
incremented by `j`, wrapping modulo `2 ^ 128`. -/

/-- A block cipher instance (Go's `cipher.Block.Encrypt` with the key baked
in): maps a 16-byte block to a 16-byte block. -/
abbrev BlockCipher := List Byte → List Byte

/-- Model of `aes.NewCipher`: succeeds exactly for 16-, 24- or 32-byte keys
(AES-128/192/256), yielding the block cipher for that key out of an
abstract AES family `aes`. -/
def aesNewCipher (aes : List Byte → BlockCipher) (key : List Byte) :
    Option BlockCipher :=
  if key.length = 16 ∨ key.length = 24 ∨ key.length = 32 then some (aes key)
  else none

/-- The `j`-th counter block used by `cipher.NewCTR`: the IV as a big-endian
128-bit counter plus `j`, wrapping modulo `2 ^ 128`. -/
def ctrBlock (iv : List Byte) (j : Nat) : List Byte :=
  natToBytesBE 16 ((bytesToNatBE iv + j) % (2 ^ 128))

/-- Byte `i` of the CTR keystream for block cipher `E` and the given IV. -/
def keyStreamByte (E : BlockCipher) (iv : List Byte) (i : Nat) : Byte :=
  (E (ctrBlock iv (i / 16))).getD (i % 16) 0

/-- `stream.XORKeyStream` starting at keystream offset `off`: XOR each data
byte with the successive keystream bytes. -/
def xorKeyStream (ks : Nat → Byte) : Nat → List Byte → List Byte
  | _, [] => []
  | off, b :: rest => (b ^^^ ks off) :: xorKeyStream ks (off + 1) rest

/-- The loop of `copyStream`: each iteration reads at most `32 * 1024`
bytes from `src` (the 32KB buffer), XORs them with the keystream in
place, writes them out and adds the count to `nw`; it stops when the
source is exhausted (`io.EOF`). -/
def copyStreamLoop (ks : Nat → Byte) (off nw : Nat) (src : List Byte) :
    Nat × List Byte :=
  if h : src = [] then (nw, [])
  else
    let chunk := src.take 32768
    let r := copyStreamLoop ks (off + chunk.length) (nw + chunk.length)
      (src.drop 32768)
    (r.1, xorKeyStream ks off chunk ++ r.2)
termination_by src.length
decreasing_by
  simp only [List.length_drop]
  have : 0 < src.length := List.length_pos.mpr h
  omega

/-- `copyStream(stream, blockSize, src, dst)`: the byte counter `nw` starts
at `blockSize`, so the returned count is the stream length plus the block
size. -/
def copyStream (ks : Nat → Byte) (blockSize : Nat) (src : List Byte) :
    Nat × List Byte :=
  copyStreamLoop ks 0 blockSize src

/-- `copyEncrypt(key, src, dst)`: build the AES cipher for `key`, draw a
random 16-byte IV (here an explicit parameter `iv`), write the IV as a
prefix of the destination, then stream-encrypt `src` after it.  Returns
the `copyStream` count (block size plus payload length). -/
def copyEncrypt (aes : List Byte → BlockCipher) (key iv src : List Byte) :
    Option (Nat × List Byte) :=
  match aesNewCipher aes key with
  | none => none
  | some E =>
    let r := copyStream (keyStreamByte E iv) 16 src
    some (r.1, iv ++ r.2)

/-- `copyDecrypt(key, src, dst)`: build the AES cipher for `key`, read the
IV from the head of `src` with a single `Read` into a zeroed 16-byte
buffer (an empty source makes that read fail; a short source leaves the
tail of the buffer zero), then stream-decrypt the remainder. -/
def copyDecrypt (aes : List Byte → BlockCipher) (key input : List Byte) :
    Option (Nat × List Byte) :=
  match aesNewCipher aes key with
  | none => none
  | some E =>
    if input = [] then none
    else
      let iv := input.take 16 ++ List.replicate (16 - input.length) 0
      some (copyStream (keyStreamByte E iv) 16 (input.drop 16))

/-- Splitting `XORKeyStream` over an append advances the offset. -/
theorem xorKeyStream_append (ks : Nat → Byte) (off : Nat) (a b : List Byte) :
    xorKeyStream ks off (a ++ b) =
      xorKeyStream ks off a ++ xorKeyStream ks (off + a.length) b := by
  induction a generalizing off with
  | nil => simp [xorKeyStream]
  | cons x xs ih =>
    simp only [List.cons_append, xorKeyStream, List.length_cons, List.append_eq, ih]
    rw [show off + (xs.length + 1) = off + 1 + xs.length by omega]

/-- `xorKeyStream` preserves length. -/
theorem xorKeyStream_length (ks : Nat → Byte) (off : Nat) (l : List Byte) :
    (xorKeyStream ks off l).length = l.length := by
  induction l generalizing off with
  | nil => simp [xorKeyStream]
  | cons x xs ih => simp [xorKeyStream, ih]

/-- XORing with the same keystream twice gives back the input. -/
theorem xorKeyStream_involutive (ks : Nat → Byte) (off : Nat) (l : List Byte) :
    xorKeyStream ks off (xorKeyStream ks off l) = l := by
  induction l generalizing off with
  | nil => simp [xorKeyStream]
  | cons x xs ih =>
    simp only [xorKeyStream, ih, List.cons.injEq, and_true]
    rw [Nat.xor_assoc, Nat.xor_self, Nat.xor_zero]

/-- The chunked copy loop computes the running count and the XOR of the
whole source with the keystream. -/
theorem copyStreamLoop_eq (ks : Nat → Byte) :
    ∀ n off nw (src : List Byte), src.length ≤ n →
      copyStreamLoop ks off nw src = (nw + src.length, xorKeyStream ks off src) := by
  intro n
  induction n with
  | zero =>
    intro off nw src hlen
    have : src = [] := List.eq_nil_of_length_eq_zero (by omega)
    subst this
    rw [copyStreamLoop]
    simp [xorKeyStream]
  | succ n ih =>
    intro off nw src hlen
    rw [copyStreamLoop]
    by_cases h : src = []
    · subst h; simp [xorKeyStream]
    · simp only [h, dite_false]
      have hdrop : (src.drop 32768).length ≤ n := by
        have : 0 < src.length := List.length_pos.mpr h
        simp only [List.length_drop]
        omega
      rw [ih _ _ _ hdrop]
      have hsplit : src = src.take 32768 ++ src.drop 32768 :=
        (List.take_append_drop 32768 src).symm
      simp only [Prod.mk.injEq]
      refine ⟨?_, ?_⟩
      · simp only [List.length_drop, List.length_take]
        omega
      · conv_rhs => rw [hsplit]
        rw [xorKeyStream_append]

/-- `copyStream` in closed form. -/
theorem copyStream_eq (ks : Nat → Byte) (blockSize : Nat) (src : List Byte) :
    copyStream ks blockSize src =
      (blockSize + src.length, xorKeyStream ks 0 src) :=
  copyStreamLoop_eq ks src.length 0 blockSize src le_rfl

/-- The encryption/decryption round trip, shared by several results below:
`copyEncrypt` writes the 16-byte IV followed by the ciphertext — `len b +
16` bytes in total, which is also the count it returns — and `copyDecrypt`
of that output returns the payload `b` exactly (with the same count). -/
theorem copyEncrypt_copyDecrypt_roundtrip (aes : List Byte → BlockCipher)
    (key iv b : List Byte) (hkey : key.length = 32) (hiv : iv.length = 16) :
    ∃ out, copyEncrypt aes key iv b = some (b.length + 16, out) ∧
      out.length = b.length + 16 ∧
      copyDecrypt aes key out = some (b.length + 16, b) := by
  have hcipher : aesNewCipher aes key = some (aes key) := by
    simp [aesNewCipher, hkey]
  refine ⟨iv ++ xorKeyStream (keyStreamByte (aes key) iv) 0 b, ?_, ?_, ?_⟩
  · simp only [copyEncrypt, hcipher, copyStream_eq, Option.some.injEq,
      Prod.mk.injEq]
    exact ⟨by omega, trivial⟩
  · simp [xorKeyStream_length, hiv]
    omega
  · have hne : iv ++ xorKeyStream (keyStreamByte (aes key) iv) 0 b ≠ [] := by
      intro hcontra
      have := congrArg List.length hcontra
      simp [xorKeyStream_length, hiv] at this
    simp only [copyDecrypt, hcipher, hne, ite_false]
    have htake : (iv ++ xorKeyStream (keyStreamByte (aes key) iv) 0 b).take 16 = iv := by
      rw [← hiv, List.take_left]
    have hdrop : (iv ++ xorKeyStream (keyStreamByte (aes key) iv) 0 b).drop 16 =
        xorKeyStream (keyStreamByte (aes key) iv) 0 b := by
      rw [← hiv, List.drop_left]
    have hlen : (iv ++ xorKeyStream (keyStreamByte (aes key) iv) 0 b).length =
        16 + b.length := by
      simp [xorKeyStream_length, hiv]
    have hrep : 16 - (iv ++ xorKeyStream (keyStreamByte (aes key) iv) 0 b).length = 0 := by
      omega
    rw [htake, hdrop, hrep]
    simp only [List.replicate_zero, List.append_nil, copyStream_eq,
      xorKeyStream_length, xorKeyStream_involutive, Option.some.injEq,
      Prod.mk.injEq]
    exact ⟨by omega, trivial⟩

/-- C1: for every 32-byte encryption key and payload `b`, decryption of the
encryption output reproduces `b`, and the encrypted output has length
`len b + 16` (the fixed IV prefix width), which is also the count
`copyEncrypt` returns. -/
theorem c1_encrypt_decrypt_roundtrip (aes : List Byte → BlockCipher)
    (key iv b : List Byte) (hkey : key.length = 32) (hiv : iv.length = 16) :
    ∃ out, copyEncrypt aes key iv b = some (b.length + 16, out) ∧
      out.length = b.length + 16 ∧
      copyDecrypt aes key out = some (b.length + 16, b) :=
  copyEncrypt_copyDecrypt_roundtrip aes key iv b hkey hiv

/-- Witness for C1 at a concrete cipher, key, IV and payload. -/
theorem c1_encrypt_decrypt_roundtrip_witness :
    (List.replicate 32 (0 : Nat)).length = 32 ∧
    (List.replicate 16 (7 : Nat)).length = 16 ∧
    ∃ out, copyEncrypt (fun _ _ => List.replicate 16 1) (List.replicate 32 0)
        (List.replicate 16 7) [10, 20, 30] = some (19, out) ∧
      out.length = 19 ∧
      copyDecrypt (fun _ _ => List.replicate 16 1) (List.replicate 32 0) out =
        some (19, [10, 20, 30]) :=
  ⟨by decide, by decide,
    c1_encrypt_decrypt_roundtrip (fun _ _ => List.replicate 16 1)
      (List.replicate 32 0) (List.replicate 16 7) [10, 20, 30]
      (by decide) (by decide)⟩

/-! ## SHA-1 (crypto/sha1) and hex encoding (encoding/hex)

`store.go` derives storage paths from `sha1.Sum([]byte(key))`.  SHA-1 is
implemented here concretely over byte lists, with 32-bit words as `Nat`
reduced modulo `2 ^ 32`. -/

/-- Left rotation of a 32-bit word (value assumed `< 2 ^ 32`). -/
def rotl32 (s x : Nat) : Nat :=
  ((x <<< s) % 2 ^ 32) ||| (x >>> (32 - s))

/-- Fuel-driven worker for `chunksOf`: structural recursion on the fuel so
the kernel can evaluate it. -/
def chunksOfGo (n : Nat) : Nat → List α → List (List α)
  | _, [] => []
  | 0, _ :: _ => []
  | fuel + 1, x :: xs => (x :: xs).take n :: chunksOfGo n fuel ((x :: xs).drop n)

/-- Split a list into consecutive chunks of `n` elements (the final chunk
may be shorter); empty for `n = 0`. -/
def chunksOf (n : Nat) (l : List α) : List (List α) :=
  if n = 0 then [] else chunksOfGo n l.length l

/-- The worker ignores the exact fuel as long as it covers the length. -/
theorem chunksOfGo_congr (n : Nat) (hn : 0 < n) :
    ∀ f f' (l : List α), l.length ≤ f → l.length ≤ f' →
      chunksOfGo n f l = chunksOfGo n f' l := by
  intro f
  induction f with
  | zero =>
    intro f' l h _
    have : l = [] := List.eq_nil_of_length_eq_zero (by omega)
    subst this
    cases f' <;> simp [chunksOfGo]
  | succ f ih =>
    intro f' l h h'
    cases l with
    | nil => cases f' <;> simp [chunksOfGo]
    | cons x xs =>
      cases f' with
      | zero => simp at h'
      | succ f' =>
        simp only [chunksOfGo, List.cons.injEq, true_and]
        apply ih
        · simp only [List.length_drop, List.length_cons] at h ⊢
          omega
        · simp only [List.length_drop, List.length_cons] at h' ⊢
          omega

/-- SHA-1 message padding: append `0x80`, zero-pad to 56 mod 64, then the
64-bit big-endian bit length. -/
def sha1Pad (msg : List Byte) : List Byte :=
  msg ++ [0x80] ++ List.replicate ((55 + 64 - msg.length % 64) % 64) 0 ++
    natToBytesBE 8 (msg.length * 8)

/-- Extend the 16-word schedule by `n` further words:
`w[t] = rotl1 (w[t-3] ^^^ w[t-8] ^^^ w[t-14] ^^^ w[t-16])`. -/
def sha1ExtendW : Nat → List Nat → List Nat
  | 0, w => w
  | n + 1, w =>
    sha1ExtendW n (w ++ [rotl32 1 ((w.getD (w.length - 3) 0) ^^^
      (w.getD (w.length - 8) 0) ^^^ (w.getD (w.length - 14) 0) ^^^
      (w.getD (w.length - 16) 0))])

/-- The SHA-1 round function for round `t`. -/
def sha1F (t b c d : Nat) : Nat :=
  if t < 20 then (b &&& c) ||| ((b ^^^ (2 ^ 32 - 1)) &&& d)
  else if t < 40 then b ^^^ c ^^^ d
  else if t < 60 then (b &&& c) ||| (b &&& d) ||| (c &&& d)
  else b ^^^ c ^^^ d

/-- The SHA-1 round constant for round `t`. -/
def sha1K (t : Nat) : Nat :=
  if t < 20 then 0x5A827999
  else if t < 40 then 0x6ED9EBA1
  else if t < 60 then 0x8F1BBCDC
  else 0xCA62C1D6

/-- Run the 80 SHA-1 rounds over the word schedule. -/
def sha1Rounds : Nat → List Nat → Nat × Nat × Nat × Nat × Nat →
    Nat × Nat × Nat × Nat × Nat
  | _, [], st => st
  | t, wt :: ws, (a, b, c, d, e) =>
    let temp := (rotl32 5 a + sha1F t b c d + e + sha1K t + wt) % 2 ^ 32
    sha1Rounds (t + 1) ws (temp, a, rotl32 30 b, c, d)

/-- Compress one 64-byte block into the running 5-word state. -/
def sha1Compress (st : Nat × Nat × Nat × Nat × Nat) (block : List Byte) :
    Nat × Nat × Nat × Nat × Nat :=
  let w := sha1ExtendW 64 ((chunksOf 4 block).map bytesToNatBE)
  let r := sha1Rounds 0 w st
  ((st.1 + r.1) % 2 ^ 32, (st.2.1 + r.2.1) % 2 ^ 32,
    (st.2.2.1 + r.2.2.1) % 2 ^ 32, (st.2.2.2.1 + r.2.2.2.1) % 2 ^ 32,
    (st.2.2.2.2 + r.2.2.2.2) % 2 ^ 32)

/-- `sha1.Sum`: the 20-byte SHA-1 digest of a byte string. -/
def sha1 (msg : List Byte) : List Byte :=
  let f := (chunksOf 64 (sha1Pad msg)).foldl sha1Compress
    (0x67452301, 0xEFCDAB89, 0x98BADCFE, 0x10325476, 0xC3D2E1F0)
  natToBytesBE 4 f.1 ++ natToBytesBE 4 f.2.1 ++ natToBytesBE 4 f.2.2.1 ++
    natToBytesBE 4 f.2.2.2.1 ++ natToBytesBE 4 f.2.2.2.2

/-- The SHA-1 digest always has 20 bytes. -/
theorem sha1_length (msg : List Byte) : (sha1 msg).length = 20 := by
  simp [sha1, natToBytesBE_length]

/-- encoding/hex's digit table, `hextable = "0123456789abcdef"`. -/
def hextable : List Char :=
  "0123456789abcdef".data

/-- The hex digit for a nibble, `hextable[d]`. -/
def hexDigit (d : Nat) : Char :=
  hextable.getD d '0'

/-- `hex.EncodeToString`: two lowercase hex digits per byte. -/
def hexEncode (bs : List Byte) : List Char :=
  bs.foldr (fun b acc => hexDigit (b / 16) :: hexDigit (b % 16) :: acc) []

/-- Hex encoding doubles the length. -/
theorem hexEncode_length (bs : List Byte) :
    (hexEncode bs).length = 2 * bs.length := by
  induction bs with
  | nil => simp [hexEncode]
  | cons b rest ih =>
    simp only [hexEncode, List.foldr_cons, List.length_cons] at ih ⊢
    omega

/-- UTF-8 encoding of one character (Go's `[]byte(string)` conversion). -/
def utf8EncodeChar (c : Char) : List Byte :=
  let n := c.toNat
  if n < 0x80 then [n]
  else if n < 0x800 then
    [0xC0 ||| (n >>> 6), 0x80 ||| (n &&& 0x3F)]
  else if n < 0x10000 then
    [0xE0 ||| (n >>> 12), 0x80 ||| ((n >>> 6) &&& 0x3F), 0x80 ||| (n &&& 0x3F)]
  else
    [0xF0 ||| (n >>> 18), 0x80 ||| ((n >>> 12) &&& 0x3F),
      0x80 ||| ((n >>> 6) &&& 0x3F), 0x80 ||| (n &&& 0x3F)]

/-- `[]byte(s)` in Go: the UTF-8 bytes of the string. -/
def stringBytes (s : String) : List Byte :=
  s.data.foldr (fun c acc => utf8EncodeChar c ++ acc) []

/-! ## store.go: path transform -/

/-- The literal path separator used throughout `store.go`. -/
def slashStr : String := "/"

/-- `strings.Join(elems, sep)`. -/
def goStringsJoin (sep : String) : List String → String
  | [] => ""
  | [s] => s
  | s :: rest => s ++ sep ++ goStringsJoin sep rest

/-- `PathKey` of `store.go`: hierarchical directory path plus leaf filename. -/
structure PathKey where
  PathName : String
  Filename : String
deriving DecidableEq

/-- Go string slicing `s[lo:hi]` (the sliced strings here are ASCII hex
digests, so byte indexing and character indexing agree). -/
def strSub (s : String) (lo hi : Nat) : String :=
  String.mk ((s.data.drop lo).take (hi - lo))

/-- The hex-encoded SHA-1 digest of a key, `hex.EncodeToString(sha1.Sum([]byte(key))[:])`. -/
def casDigest (key : String) : String :=
  String.mk (hexEncode (sha1 (stringBytes key)))

/-- `CASPathTransformFunc`: split the 40-character digest into
`len/blocksize` directory segments of `blocksize = 5` characters; the
full digest is the leaf filename. -/
def CASPathTransformFunc (key : String) : PathKey :=
  let hashStr := casDigest key
  let blocksize := 5
  let sliceLen := hashStr.length / blocksize
  let paths := (List.range sliceLen).map
    (fun i => strSub hashStr (i * blocksize) (i * blocksize + blocksize))
  { PathName := goStringsJoin slashStr paths, Filename := hashStr }

/-- `DefaultPathTransformFunc`: the identity transform. -/
def DefaultPathTransformFunc (key : String) : PathKey :=
  { PathName := key, Filename := key }

/-- `PathKey.FullPath`: `fmt.Sprintf("%s/%s", PathName, Filename)`. -/
def PathKey.FullPath (p : PathKey) : String :=
  p.PathName ++ slashStr ++ p.Filename

/-- `strings.Split` for a single-character separator. -/
def goSplitChar (sep : Char) : List Char → List (List Char)
  | [] => [[]]
  | c :: rest =>
    if c = sep then [] :: goSplitChar sep rest
    else
      match goSplitChar sep rest with
      | [] => [[c]]
      | g :: gs => (c :: g) :: gs

/-- `PathKey.FirstPathName`: the first element of `strings.Split(PathName, "/")`
(empty when the split is empty, which never happens). -/
def PathKey.FirstPathName (p : PathKey) : String :=
  match goSplitChar '/' p.PathName.data with
  | [] => ""
  | g :: _ => String.mk g

/-- Stated from the spec's words for claim C2: a digest string split into
consecutive `w`-character groups. -/
def specSplitGroups (w : Nat) (s : String) : List String :=
  (chunksOf w s.data).map String.mk

/-- The indexed slice extraction of `CASPathTransformFunc` produces exactly
the consecutive 5-character chunks of the digest. -/
theorem range_map_slice_eq_chunks :
    ∀ (n : Nat) (l : List Char), l.length = n * 5 →
      (List.range n).map (fun i => ((l.drop (i * 5)).take 5)) = chunksOf 5 l := by
  intro n
  induction n with
  | zero =>
    intro l h
    have : l = [] := List.eq_nil_of_length_eq_zero (by omega)
    subst this
    simp [chunksOf, chunksOfGo]
  | succ n ih =>
    intro l h
    have hlen : l.length = n * 5 + 5 := by omega
    obtain ⟨x, xs, rfl⟩ : ∃ x xs, l = x :: xs := by
      cases l with
      | nil => simp at hlen
      | cons x xs => exact ⟨x, xs, rfl⟩
    rw [List.range_succ_eq_map]
    simp only [List.map_cons, List.map_map, Nat.zero_mul, List.drop_zero]
    have hfun : ((fun i => ((x :: xs).drop (i * 5)).take 5) ∘ Nat.succ) =
        (fun i => (((x :: xs).drop 5).drop (i * 5)).take 5) := by
      funext i
      simp only [Function.comp_apply, List.drop_drop]
      congr 2
      omega
    rw [hfun, ih (((x :: xs).drop 5)) (by simp only [List.length_drop]; omega)]
    simp only [chunksOf, if_neg (by omega : ¬(5 = 0))]
    have hcong : chunksOfGo 5 ((x :: xs).drop 5).length ((x :: xs).drop 5) =
        chunksOfGo 5 xs.length ((x :: xs).drop 5) := by
      apply chunksOfGo_congr 5 (by omega)
      · exact le_rfl
      · simp only [List.length_drop, List.length_cons]; omega
    rw [hcong]
    simp [chunksOfGo]

/-- C2: the CAS path transform is deterministic; its leaf is the 40-character
hex digest; `specSplitGroups` (the spec's equal-width 5-character split of
the digest) has 8 segments of 5 characters; the `PathName` is exactly those
segments joined with a slash, and `FullPath` appends the leaf after one more
slash.  Concretely, the key "momsbestpicture" yields the 40-character digest
`6804429f74181a63c50c3d81d733a12f14a353ff` as its leaf. -/
theorem c2_cas_path_transform (key : String) :
    CASPathTransformFunc key = CASPathTransformFunc key ∧
    (CASPathTransformFunc key).Filename.length = 40 ∧
    (specSplitGroups 5 (CASPathTransformFunc key).Filename).length = 8 ∧
    (∀ g ∈ specSplitGroups 5 (CASPathTransformFunc key).Filename,
      g.length = 5) ∧
    (CASPathTransformFunc key).PathName =
      goStringsJoin slashStr
        (specSplitGroups 5 (CASPathTransformFunc key).Filename) ∧
    (CASPathTransformFunc key).FullPath =
      goStringsJoin slashStr
          (specSplitGroups 5 (CASPathTransformFunc key).Filename) ++
        slashStr ++ (CASPathTransformFunc key).Filename ∧
    (CASPathTransformFunc "momsbestpicture").Filename =
      "6804429f74181a63c50c3d81d733a12f14a353ff" ∧
    (CASPathTransformFunc "momsbestpicture").Filename.length = 40 := by
  have hdata : (casDigest key).data.length = 40 := by
    show (hexEncode (sha1 (stringBytes key))).length = 40
    rw [hexEncode_length, sha1_length]
  have hlen : (casDigest key).length = 40 := by
    rw [casDigest, String.length_mk]
    exact hdata
  have hfile : (CASPathTransformFunc key).Filename = casDigest key := rfl
  have hslice : (fun i => strSub (casDigest key) (i * 5) (i * 5 + 5)) =
      (fun i => String.mk (((casDigest key).data.drop (i * 5)).take 5)) := by
    funext i
    simp [strSub, Nat.add_sub_cancel_left]
  have hchunks := range_map_slice_eq_chunks 8 (casDigest key).data
    (by rw [hdata])
  have hpaths : (List.range 8).map
      (fun i => strSub (casDigest key) (i * 5) (i * 5 + 5)) =
      specSplitGroups 5 (casDigest key) := by
    rw [hslice, specSplitGroups, ← hchunks, List.map_map]
    rfl
  have hname : (CASPathTransformFunc key).PathName =
      goStringsJoin slashStr (specSplitGroups 5 (casDigest key)) := by
    simp only [CASPathTransformFunc, hlen]
    norm_num
    rw [hpaths]
  refine ⟨rfl, ?_, ?_, ?_, ?_, ?_, by decide, by decide⟩
  · rw [hfile]; exact hlen
  · rw [hfile, ← hpaths]; simp
  · rw [hfile, ← hpaths]
    intro g hg
    simp only [List.mem_map, List.mem_range] at hg
    obtain ⟨i, hi, rfl⟩ := hg
    rw [congrFun hslice i, String.length_mk]
    simp only [List.length_take, List.length_drop, hdata]
    omega
  · rw [hfile]; exact hname
  · rw [PathKey.FullPath, hname, hfile]

/-! ## store.go: the Store over a model filesystem

The filesystem is a partial map from full path strings to file contents;
`os.Stat` outcomes distinguish success, not-exist failures and other
failures (permission errors and the like), because `Store.Has` treats
them differently. -/

/-- Outcome of `os.Stat`. -/
inductive StatOutcome where
  | ok
  | errNotExist
  | errOther
deriving DecidableEq

/-- The model filesystem. -/
def FS : Type := String → Option (List Byte)

/-- `os.Stat` against the model filesystem: a stored path stats fine, a
missing one fails with not-exist. -/
def statFS (fs : FS) (p : String) : StatOutcome :=
  match fs p with
  | some _ => .ok
  | none => .errNotExist

/-- `os.RemoveAll(dir)`: removes `dir` itself and every path below it. -/
def removeAll (fs : FS) (dir : String) : FS :=
  fun p => if p = dir ∨ (dir ++ slashStr).data <+: p.data then none else fs p

/-- The `Store` of `store.go`: a root directory plus the pluggable path
transform. -/
structure Store where
  Root : String
  PathTransformFunc : String → PathKey

/-- `fmt.Sprintf("%s/%s/%s", s.Root, id, pathKey.FullPath())`. -/
def fullPathWithRoot (s : Store) (id key : String) : String :=
  s.Root ++ slashStr ++ id ++ slashStr ++ (s.PathTransformFunc key).FullPath

/-- `Store.Has`: stat the derived full path and report `false` exactly on
`os.ErrNotExist` (`!errors.Is(err, os.ErrNotExist)`); any other stat
outcome — success or a different failure — yields `true`. -/
def Store.Has (s : Store) (stat : String → StatOutcome) (id key : String) :
    Bool :=
  match stat (fullPathWithRoot s id key) with
  | .errNotExist => false
  | _ => true

/-- `Store.Write` / `writeStream`: create the directories, create or
truncate the leaf file, copy the source verbatim; returns the byte count. -/
def Store.Write (s : Store) (fs : FS) (id key : String) (data : List Byte) :
    Nat × FS :=
  (data.length,
    fun p => if p = fullPathWithRoot s id key then some data else fs p)

/-- `Store.Read` / `readStream`: open the leaf file, return its size and
contents; fails when the file is absent. -/
def Store.Read (s : Store) (fs : FS) (id key : String) :
    Option (Nat × List Byte) :=
  match fs (fullPathWithRoot s id key) with
  | none => none
  | some data => some (data.length, data)

/-- `Store.Delete`: `os.RemoveAll` of
`fmt.Sprintf("%s/%s/%s", s.Root, id, pathKey.FirstPathName())` — the whole
first directory-segment bucket, not just the leaf. -/
def Store.Delete (s : Store) (fs : FS) (id key : String) : FS :=
  removeAll fs
    (s.Root ++ slashStr ++ id ++ slashStr ++
      (s.PathTransformFunc key).FirstPathName)

/-- `Store.WriteDecrypt`: open the leaf file for writing and pipe the
source through `copyDecrypt`; the file is created (empty) even when
decryption fails. -/
def Store.WriteDecrypt (s : Store) (aes : List Byte → BlockCipher)
    (encKey : List Byte) (fs : FS) (id key : String) (stream : List Byte) :
    Option Nat × FS :=
  match copyDecrypt aes encKey stream with
  | none =>
    (none, fun p => if p = fullPathWithRoot s id key then some [] else fs p)
  | some (n, plain) =>
    (some n,
      fun p => if p = fullPathWithRoot s id key then some plain else fs p)

/-- C4 counterexample: a stat failure that is not not-exist (for instance a
permission error) makes `Has` return `true`, not `false`. -/
theorem c4_has_counterexample :
    Store.Has ⟨"ggnetwork", CASPathTransformFunc⟩ (fun _ => .errOther)
      "node1" "key1" = true := rfl

/-- C4, amended: `Has` has no error result, and it returns `false` exactly
when the stat of the derived path fails with not-exist; any other stat
failure yields `true`. -/
theorem c4_has_amended (s : Store) (stat : String → StatOutcome)
    (id key : String) :
    s.Has stat id key = false ↔
      stat (fullPathWithRoot s id key) = .errNotExist := by
  unfold Store.Has
  cases stat (fullPathWithRoot s id key) <;> simp

/-! ## Structure of CAS-derived paths -/

/-- The slash separator as character data. -/
theorem slashStr_data : slashStr.data = ['/'] := rfl

/-- The digest data always has 40 characters. -/
theorem casDigest_data_length (key : String) :
    (casDigest key).data.length = 40 := by
  show (hexEncode (sha1 (stringBytes key))).length = 40
  rw [hexEncode_length, sha1_length]

/-- No hex digit is a slash. -/
theorem hexDigit_ne_slash (d : Nat) : hexDigit d ≠ '/' := by
  rcases Nat.lt_or_ge d 16 with h | h
  · interval_cases d <;> decide
  · unfold hexDigit
    rw [List.getD_eq_default]
    · decide
    · simp only [hextable, List.length_cons, List.length_nil]
      omega

/-- Hex-encoded data never contains a slash. -/
theorem hexEncode_no_slash (bs : List Byte) : '/' ∉ hexEncode bs := by
  induction bs with
  | nil => simp [hexEncode]
  | cons b rest ih =>
    simp only [hexEncode, List.foldr_cons, List.mem_cons, not_or]
    exact ⟨fun h => hexDigit_ne_slash _ h.symm,
      fun h => hexDigit_ne_slash _ h.symm, ih⟩

/-- The digest never contains a slash. -/
theorem casDigest_no_slash (key : String) : '/' ∉ (casDigest key).data :=
  hexEncode_no_slash _

/-- `strings.Split` after an initial separator-free block. -/
theorem goSplitChar_append (sep : Char) :
    ∀ (a b : List Char), sep ∉ a →
      goSplitChar sep (a ++ sep :: b) = a :: goSplitChar sep b := by
  intro a
  induction a with
  | nil => intro b _; simp [goSplitChar]
  | cons c a ih =>
    intro b ha
    have hc : ¬(c = sep) := fun h => ha (h ▸ List.mem_cons_self c a)
    have ha' : sep ∉ a := fun h => ha (List.mem_cons_of_mem _ h)
    simp only [List.cons_append, goSplitChar, if_neg hc, List.append_eq]
    rw [ih b ha']

/-- The `CASPathTransformFunc` result in explicit eight-segment form. -/
theorem cas_explicit (key : String) :
    CASPathTransformFunc key =
      { PathName := goStringsJoin slashStr ((List.range 8).map
          (fun i => strSub (casDigest key) (i * 5) (i * 5 + 5))),
        Filename := casDigest key } := by
  have hlen : (casDigest key).length = 40 := by
    rw [casDigest, String.length_mk]
    exact casDigest_data_length key
  simp only [CASPathTransformFunc, hlen]

/-- The path and leaf structure every claim about deletion needs: the
`PathName` data starts with the first five digest characters followed by a
slash, the `FirstPathName` is exactly those five characters, and the
`FullPath` data extends the `PathName` data with a slash and the digest. -/
theorem cas_shape (key : String) :
    ∃ t : List Char,
      (CASPathTransformFunc key).PathName.data =
        ((casDigest key).data.take 5) ++ '/' :: t ∧
      (CASPathTransformFunc key).FirstPathName =
        String.mk ((casDigest key).data.take 5) ∧
      (CASPathTransformFunc key).FullPath.data =
        ((casDigest key).data.take 5) ++
          '/' :: (t ++ '/' :: (casDigest key).data) := by
  have hslash : '/' ∉ (casDigest key).data.take 5 :=
    fun h => casDigest_no_slash key (List.mem_of_mem_take h)
  have hname : (CASPathTransformFunc key).PathName.data =
      ((casDigest key).data.take 5) ++ '/' ::
        (goStringsJoin slashStr
          [strSub (casDigest key) 5 10, strSub (casDigest key) 10 15,
            strSub (casDigest key) 15 20, strSub (casDigest key) 20 25,
            strSub (casDigest key) 25 30, strSub (casDigest key) 30 35,
            strSub (casDigest key) 35 40]).data := by
    rw [cas_explicit]
    rw [show List.range 8 = [0, 1, 2, 3, 4, 5, 6, 7] from rfl]
    norm_num [List.map_cons, List.map_nil]
    show (strSub (casDigest key) 0 5 ++ slashStr ++ _).data = _
    simp only [String.data_append, slashStr_data]
    rw [show strSub (casDigest key) 0 5 =
      String.mk ((casDigest key).data.take 5) from by simp [strSub]]
    simp
  refine ⟨_, hname, ?_, ?_⟩
  · rw [PathKey.FirstPathName, hname, goSplitChar_append _ _ _ hslash]
  · show ((CASPathTransformFunc key).PathName ++ slashStr ++
      (CASPathTransformFunc key).Filename).data = _
    simp only [String.data_append, slashStr_data, hname]
    rw [show (CASPathTransformFunc key).Filename = casDigest key from by
      rw [cas_explicit]]
    simp

/-- `String.mk` only wraps the character data. -/
theorem data_mk (l : List Char) : (String.mk l).data = l := rfl

/-- The first five digest characters. -/
theorem casDigest_take5_length (key : String) :
    ((casDigest key).data.take 5).length = 5 := by
  rw [List.length_take, casDigest_data_length]
  rfl

/-- `Delete` on `key` removes the stored file of every `key2` whose derived
path shares the first directory segment (including `key` itself). -/
theorem delete_removes_shared_bucket (fs : FS) (root id key key2 : String)
    (hseg : (CASPathTransformFunc key2).FirstPathName =
      (CASPathTransformFunc key).FirstPathName) :
    (Store.mk root CASPathTransformFunc).Delete fs id key
      (fullPathWithRoot (Store.mk root CASPathTransformFunc) id key2) =
      none := by
  obtain ⟨t, hn, hf, hp⟩ := cas_shape key
  obtain ⟨t2, hn2, hf2, hp2⟩ := cas_shape key2
  have htake : (casDigest key2).data.take 5 = (casDigest key).data.take 5 :=
    congrArg String.data (hf2.symm.trans (hseg.trans hf))
  unfold Store.Delete removeAll
  rw [if_pos]
  right
  refine ⟨t2 ++ '/' :: (casDigest key2).data, ?_⟩
  show ((root ++ slashStr ++ id ++ slashStr ++
      (CASPathTransformFunc key).FirstPathName ++ slashStr).data) ++ _ =
    ((root ++ slashStr ++ id ++ slashStr ++
      (CASPathTransformFunc key2).FullPath).data)
  simp only [String.data_append, slashStr_data, hf, hp2, htake,
    List.append_assoc]
  simp

/-- `Delete` on `key` leaves the stored file of any `key2` with a different
first directory segment untouched. -/
theorem delete_keeps_other_bucket (fs : FS) (root id key key2 : String)
    (hseg : (CASPathTransformFunc key2).FirstPathName ≠
      (CASPathTransformFunc key).FirstPathName) :
    (Store.mk root CASPathTransformFunc).Delete fs id key
      (fullPathWithRoot (Store.mk root CASPathTransformFunc) id key2) =
      fs (fullPathWithRoot (Store.mk root CASPathTransformFunc) id key2) := by
  obtain ⟨t, hn, hf, hp⟩ := cas_shape key
  obtain ⟨t2, hn2, hf2, hp2⟩ := cas_shape key2
  unfold Store.Delete removeAll
  rw [if_neg]
  rintro (heq | hpref)
  · have := congrArg (fun s => s.data.length) heq
    simp only [fullPathWithRoot, String.data_append, slashStr_data, hf, hp2,
      data_mk, List.length_append, List.length_cons, List.length_singleton,
      casDigest_take5_length, casDigest_data_length] at this
    omega
  · have hpref' : ((CASPathTransformFunc key).FirstPathName.data ++ ['/']) <+:
        (CASPathTransformFunc key2).FullPath.data := by
      have h1 : (root ++ slashStr ++ id ++ slashStr ++
          (CASPathTransformFunc key).FirstPathName ++ slashStr).data =
          (root ++ slashStr ++ id ++ slashStr).data ++
            ((CASPathTransformFunc key).FirstPathName.data ++ ['/']) := by
        simp [String.data_append, slashStr_data, List.append_assoc]
      have h2 : (fullPathWithRoot
          (Store.mk root CASPathTransformFunc) id key2).data =
          (root ++ slashStr ++ id ++ slashStr).data ++
            (CASPathTransformFunc key2).FullPath.data := by
        simp [fullPathWithRoot, String.data_append, List.append_assoc]
      rw [h1, h2] at hpref
      exact (List.prefix_append_right_inj _).mp hpref
    rw [hf, hp2] at hpref'
    obtain ⟨u, hu⟩ := hpref'
    simp only [data_mk, List.append_assoc, List.singleton_append] at hu
    have heq5 : (casDigest key).data.take 5 = (casDigest key2).data.take 5 :=
      List.append_inj_left hu
        (by rw [casDigest_take5_length, casDigest_take5_length])
    apply hseg
    rw [hf, hf2, heq5]

/-- C5: for every filesystem state, node id, key and data: a write returns
`len data` and leaves the store with `Has` true and `Read` returning
`(len data, data)` for that key; a subsequent delete makes `Has` false. -/
theorem c5_store_lifecycle (fs : FS) (root id key : String)
    (data : List Byte) :
    ((Store.mk root CASPathTransformFunc).Write fs id key data).1 =
      data.length ∧
    (Store.mk root CASPathTransformFunc).Has
      (statFS ((Store.mk root CASPathTransformFunc).Write fs id key data).2)
      id key = true ∧
    (Store.mk root CASPathTransformFunc).Read
      ((Store.mk root CASPathTransformFunc).Write fs id key data).2 id key =
      some (data.length, data) ∧
    (Store.mk root CASPathTransformFunc).Has
      (statFS ((Store.mk root CASPathTransformFunc).Delete
        ((Store.mk root CASPathTransformFunc).Write fs id key data).2
        id key)) id key = false := by
  refine ⟨rfl, ?_, ?_, ?_⟩
  · simp [Store.Has, Store.Write, statFS]
  · simp [Store.Read, Store.Write]
  · have hdel := delete_removes_shared_bucket
      (((Store.mk root CASPathTransformFunc).Write fs id key data).2)
      root id key key rfl
    simp [Store.Has, statFS, hdel]

/-- C6: deleting a key removes the whole first-segment bucket: afterwards
`Has` is false for every key2 sharing the first derived path segment, while
the stored blob and the `Has` answer of any key2 under a different first
segment are unchanged. -/
theorem c6_delete_granularity (fs : FS) (root id key key2 : String) :
    ((CASPathTransformFunc key2).FirstPathName =
        (CASPathTransformFunc key).FirstPathName →
      (Store.mk root CASPathTransformFunc).Has
        (statFS ((Store.mk root CASPathTransformFunc).Delete fs id key))
        id key2 = false) ∧
    ((CASPathTransformFunc key2).FirstPathName ≠
        (CASPathTransformFunc key).FirstPathName →
      ((Store.mk root CASPathTransformFunc).Delete fs id key)
          (fullPathWithRoot (Store.mk root CASPathTransformFunc) id key2) =
        fs (fullPathWithRoot (Store.mk root CASPathTransformFunc) id key2) ∧
      (Store.mk root CASPathTransformFunc).Has
          (statFS ((Store.mk root CASPathTransformFunc).Delete fs id key))
          id key2 =
        (Store.mk root CASPathTransformFunc).Has (statFS fs) id key2) := by
  constructor
  · intro hseg
    have hdel := delete_removes_shared_bucket fs root id key key2 hseg
    simp [Store.Has, statFS, hdel]
  · intro hseg
    have hkeep := delete_keeps_other_bucket fs root id key key2 hseg
    refine ⟨hkeep, ?_⟩
    simp [Store.Has, statFS, hkeep]

/-- Witness for C6: deleting key "a" (first segment `86f7e`) on an empty
filesystem leaves `Has` false for "a" itself, and leaves the stored blob of
key "b" (first segment `e9d71`) untouched. -/
theorem c6_delete_granularity_witness :
    (Store.mk "r" CASPathTransformFunc).Has
      (statFS ((Store.mk "r" CASPathTransformFunc).Delete
        (fun _ => none) "n" "a")) "n" "a" = false ∧
    ((Store.mk "r" CASPathTransformFunc).Delete (fun _ => none) "n" "a")
        (fullPathWithRoot (Store.mk "r" CASPathTransformFunc) "n" "b") =
      none :=
  ⟨(c6_delete_granularity (fun _ => none) "r" "n" "a" "a").1 rfl,
    ((c6_delete_granularity (fun _ => none) "r" "n" "a" "b").2
      (by decide)).1⟩

/-! ## server.go: handleMessageStoreFile

`handleMessageStoreFile` looks the sender up in the peer map, then writes
`io.LimitReader(peer, msg.Size)` — the raw stream bytes, bounded by the
announced size — to local storage with `Store.Write`, and finally signals
`CloseStream`. -/

/-- The `MessageStoreFile` control message. -/
structure MessageStoreFile where
  ID : String
  Key : String
  Size : Nat
deriving DecidableEq

/-- `FileServer.handleMessageStoreFile`: fails when the sender is not in
the peer map; otherwise persists the first `msg.Size` raw bytes read off
the peer connection under `(msg.ID, msg.Key)` via `Store.Write`. -/
def handleMessageStoreFile (store : Store) (fs : FS) (peers : List String)
    (fromAddr : String) (msg : MessageStoreFile) (peerBytes : List Byte) :
    Option (Nat × FS) :=
  if fromAddr ∈ peers then
    some (store.Write fs msg.ID msg.Key (peerBytes.take msg.Size))
  else none

/-- C3 counterexample: on a concrete encrypted stream of 17 bytes (16-byte
IV plus one payload byte), the handler persists the 17 raw bytes unchanged,
while the decrypted plaintext of that stream is the single byte `[1]` — the
persisted bytes are not the decrypted plaintext. -/
theorem c3_counterexample :
    ∃ n fs2,
      handleMessageStoreFile (Store.mk "r" CASPathTransformFunc)
        (fun _ => none) ["p"] "p" ⟨"n", "k", 17⟩ (List.replicate 17 0) =
        some (n, fs2) ∧
      fs2 (fullPathWithRoot (Store.mk "r" CASPathTransformFunc) "n" "k") =
        some (List.replicate 17 0) ∧
      copyDecrypt (fun _ _ => List.replicate 16 1) (List.replicate 32 0)
        (List.replicate 17 0) = some (17, [1]) ∧
      List.replicate 17 (0 : Byte) ≠ [1] := by
  refine ⟨17, _, rfl, by decide, ?_, by decide⟩
  simp only [copyDecrypt, aesNewCipher, copyStream_eq]
  norm_num
  decide

/-- C3, amended: the handler persists the raw received stream bytes
unchanged (bounded by the announced size) via `Store.Write`, without
decrypting them; when the peer streams `copyEncrypt` output of payload `b`
with the announced size `len b + 16`, the stored blob is exactly that
encrypted stream, and `copyDecrypt` — applied only later, when the blob is
fetched over the `Get`/`WriteDecrypt` path — recovers `b` from it. -/
theorem c3_store_raw (store : Store) (fs : FS) (peers : List String)
    (fromAddr id key : String) (aes : List Byte → BlockCipher)
    (encKey iv b : List Byte) (hkey : encKey.length = 32)
    (hiv : iv.length = 16) (hpeer : fromAddr ∈ peers) :
    ∃ enc fs2,
      copyEncrypt aes encKey iv b = some (b.length + 16, enc) ∧
      handleMessageStoreFile store fs peers fromAddr
          ⟨id, key, b.length + 16⟩ enc = some (b.length + 16, fs2) ∧
      fs2 (fullPathWithRoot store id key) = some enc ∧
      copyDecrypt aes encKey enc = some (b.length + 16, b) := by
  obtain ⟨enc, he, hlen, hd⟩ := copyEncrypt_copyDecrypt_roundtrip aes encKey
    iv b hkey hiv
  have htake : enc.take (b.length + 16) = enc := by
    rw [← hlen]
    exact List.take_length enc
  refine ⟨enc,
    fun p => if p = fullPathWithRoot store id key then some enc else fs p,
    he, ?_, ?_, hd⟩
  · unfold handleMessageStoreFile Store.Write
    rw [if_pos hpeer]
    show some ((enc.take (b.length + 16)).length,
      fun p => if p = fullPathWithRoot store id key
        then some (enc.take (b.length + 16)) else fs p) = _
    rw [htake, hlen]
  · simp

/-- Witness for C3's amended statement at a concrete cipher, key, IV,
payload and peer. -/
theorem c3_store_raw_witness :
    ∃ enc fs2,
      copyEncrypt (fun _ _ => List.replicate 16 1) (List.replicate 32 0)
          (List.replicate 16 0) [5] = some ([5].length + 16, enc) ∧
      handleMessageStoreFile (Store.mk "r" CASPathTransformFunc)
          (fun _ => none) ["p"] "p" ⟨"n", "k", [5].length + 16⟩ enc =
        some ([5].length + 16, fs2) ∧
      fs2 (fullPathWithRoot (Store.mk "r" CASPathTransformFunc) "n" "k") =
        some enc ∧
      copyDecrypt (fun _ _ => List.replicate 16 1) (List.replicate 32 0)
        enc = some ([5].length + 16, [5]) :=
  c3_store_raw (Store.mk "r" CASPathTransformFunc) (fun _ => none) ["p"]
    "p" "n" "k" (fun _ _ => List.replicate 16 1) (List.replicate 32 0)
    (List.replicate 16 0) [5] (by decide) (by decide) (by decide)

/-! ## p2p: message constants, RPC, DefaultDecoder and the read loop -/

/-- Wire tag for a discrete control message. -/
def IncomingMessage : Byte := 0x1

/-- Wire tag for a raw stream. -/
def IncomingStream : Byte := 0x2

/-- The `RPC` struct of `p2p/message.go`. -/
structure RPC where
  From : String
  Payload : List Byte
  Stream : Bool
deriving DecidableEq

/-- `DefaultDecoder.Decode`: read one tag byte (a failed first read returns
`nil` — success — with the RPC untouched); a Stream tag sets `Stream` and
consumes nothing more; otherwise one read of up to 1028 bytes becomes the
payload (a failed second read returns the error).  `none` is a returned
decode error; `some` pairs the updated RPC with the unconsumed source. -/
def DefaultDecoderDecode (input : List Byte) (msg : RPC) :
    Option (RPC × List Byte) :=
  match input with
  | [] => some (msg, [])
  | t :: rest =>
    if t = IncomingStream then some ({ msg with Stream := true }, rest)
    else
      match rest with
      | [] => none
      | _ :: _ => some ({ msg with Payload := rest.take 1028 },
          rest.drop 1028)

/-- Observable steps of the per-connection read loop. -/
inductive LoopEvent where
  | enqueue (rpc : RPC)
  | waitStream
deriving DecidableEq

/-- The read loop of `TCPTransport.handleConn`, fuel-bounded: decode one
unit, stamp the sender address, then either block on the stream gate until
`CloseStream` (`waitStream`) and resume, or push the RPC to the inbound
channel (`enqueue`); a decode error drops the connection. -/
def handleConnLoop (addr : String) : Nat → List Byte → List LoopEvent
  | 0, _ => []
  | fuel + 1, input =>
    match DefaultDecoderDecode input ⟨"", [], false⟩ with
    | none => []
    | some (rpc, rest) =>
      let rpc2 := { rpc with From := addr }
      if rpc2.Stream then
        LoopEvent.waitStream :: handleConnLoop addr fuel rest
      else
        LoopEvent.enqueue rpc2 :: handleConnLoop addr fuel rest

/-- C7: the decoder consumes exactly the leading tag byte; a Stream tag
(0x2) only sets the stream flag and leaves the rest of the source
unconsumed; any other tag yields a payload of at most 1028 bytes taken
from the source, so a longer frame is truncated rather than delivered
whole. -/
theorem c7_decoder_contract (t : Byte) (rest : List Byte) (msg : RPC) :
    IncomingStream = 2 ∧
    (t = IncomingStream →
      DefaultDecoderDecode (t :: rest) msg =
        some ({ msg with Stream := true }, rest)) ∧
    (t ≠ IncomingStream → rest ≠ [] →
      DefaultDecoderDecode (t :: rest) msg =
        some ({ msg with Payload := rest.take 1028 }, rest.drop 1028) ∧
      (rest.take 1028).length ≤ 1028 ∧
      (1028 < rest.length → rest.take 1028 ≠ rest)) := by
  refine ⟨rfl, ?_, ?_⟩
  · intro ht
    subst ht
    simp [DefaultDecoderDecode]
  · intro ht hrest
    obtain ⟨r, rs, rfl⟩ : ∃ r rs, rest = r :: rs := by
      cases rest with
      | nil => exact absurd rfl hrest
      | cons r rs => exact ⟨r, rs, rfl⟩
    refine ⟨by simp [DefaultDecoderDecode, ht], ?_, ?_⟩
    · simp only [List.length_take]
      omega
    · intro hlong heq
      have := congrArg List.length heq
      simp only [List.length_take] at this
      omega

/-- Witness for C7 at a stream-tagged and a message-tagged source. -/
theorem c7_decoder_contract_witness :
    DefaultDecoderDecode (2 :: [9, 9]) ⟨"", [], false⟩ =
      some (⟨"", [], true⟩, [9, 9]) ∧
    DefaultDecoderDecode (1 :: [5]) ⟨"", [], false⟩ =
      some (⟨"", [5], false⟩, []) :=
  ⟨(c7_decoder_contract 2 [9, 9] ⟨"", [], false⟩).2.1 rfl,
    ((c7_decoder_contract 1 [5] ⟨"", [], false⟩).2.2 (by decide)
      (by decide)).1⟩

/-- C8: a decoded stream-tagged unit is never enqueued — every RPC the
loop pushes to the inbound channel has `Stream = false` — and on a
stream-tagged unit the loop emits the blocking wait on the per-peer gate
and then resumes decoding the remaining bytes without enqueueing that
unit. -/
theorem c8_stream_never_enqueued (addr : String) (fuel : Nat)
    (input : List Byte) :
    (∀ rpc, LoopEvent.enqueue rpc ∈ handleConnLoop addr fuel input →
      rpc.Stream = false) ∧
    (∀ rest f, input = IncomingStream :: rest → fuel = f + 1 →
      handleConnLoop addr fuel input =
        LoopEvent.waitStream :: handleConnLoop addr f rest) := by
  constructor
  · induction fuel generalizing input with
    | zero => intro rpc h; simp [handleConnLoop] at h
    | succ fuel ih =>
      intro rpc h
      rw [handleConnLoop] at h
      cases hdec : DefaultDecoderDecode input ⟨"", [], false⟩ with
      | none => rw [hdec] at h; simp at h
      | some pr =>
        obtain ⟨rpc0, rest⟩ := pr
        rw [hdec] at h
        dsimp only at h
        by_cases hstream : rpc0.Stream = true
        · rw [if_pos hstream] at h
          rcases List.mem_cons.mp h with h1 | h1
          · exact absurd h1 (by simp)
          · exact ih rest rpc h1
        · rw [if_neg hstream] at h
          have hfalse : rpc0.Stream = false := by
            revert hstream
            cases rpc0.Stream <;> simp
          rcases List.mem_cons.mp h with h1 | h1
          · have h2 : rpc =
                { From := addr, Payload := rpc0.Payload,
                  Stream := rpc0.Stream } := by
              injection h1
            rw [h2]
            exact hfalse
          · exact ih rest rpc h1
  · intro rest f hinput hfuel
    subst hinput hfuel
    rw [handleConnLoop]
    simp [DefaultDecoderDecode]

/-- Witness for C8: one stream-tagged and one message-tagged run of the
loop. -/
theorem c8_stream_never_enqueued_witness :
    ((⟨"a", [5], false⟩ : RPC).Stream = false) ∧
    handleConnLoop "a" 2 [2, 7] =
      LoopEvent.waitStream :: handleConnLoop "a" 1 [7] :=
  ⟨(c8_stream_never_enqueued "a" 1 [1, 5]).1 ⟨"a", [5], false⟩ (by decide),
    (c8_stream_never_enqueued "a" 2 [2, 7]).2 [7] 1 rfl rfl⟩

/-- C10: when the very first read of the source fails (an exhausted
source), the decoder reports success with the RPC untouched — so a
connection read failure at a frame boundary never surfaces as a decode
error, and the read loop pushes an empty RPC (sender stamped, empty
payload, `Stream = false`) to the inbound queue and keeps looping instead
of dropping the connection. -/
theorem c10_empty_read_success (addr : String) (msg : RPC) (fuel : Nat) :
    DefaultDecoderDecode [] msg = some (msg, []) ∧
    handleConnLoop addr (fuel + 1) [] =
      LoopEvent.enqueue ⟨addr, [], false⟩ :: handleConnLoop addr fuel [] := by
  constructor
  · rfl
  · rw [handleConnLoop]
    simp [DefaultDecoderDecode]

/-! ## server.go: FileServer.Get

`Get` serves from local disk when `Store.Has` says the file is there;
otherwise it broadcasts a `GetFile` request to every peer, waits, reads a
size prefix and that many bytes from each peer, decrypts them into local
storage via `Store.WriteDecrypt` and signals `CloseStream`.  Network
traffic is modelled as an explicit event trace; peer replies come from an
oracle.  `hashKey` uses Go's `crypto/md5` — like AES, the stdlib digest
primitive is an abstract parameter, while the hex encoding around it is
concrete. -/

/-- `hashKey`: `hex.EncodeToString(md5.Sum([]byte(key))[:])`, with the MD5
primitive abstract. -/
def hashKey (md5 : List Byte → List Byte) (key : String) : String :=
  String.mk (hexEncode (md5 (stringBytes key)))

/-- The `MessageGetFile` control message. -/
structure MessageGetFile where
  ID : String
  Key : String
deriving DecidableEq

/-- Observable network traffic of the orchestrator. -/
inductive NetEvent where
  | sendTag (addr : String) (tag : Byte)
  | sendMsg (addr : String) (msg : MessageGetFile)
  | readSizeStream (addr : String) (size : Nat)
  | closeStream (addr : String)
deriving DecidableEq

/-- The `FileServer` state the embedded operations touch: node identity,
encryption key, CAS store and the peer map (as the list of remote
addresses).  The transport and bootstrap configuration do not enter any
claim. -/
structure FileServer where
  ID : String
  EncKey : List Byte
  store : Store
  peers : List String

/-- The per-peer receive loop of `FileServer.Get`'s network branch: read
the size prefix, pipe `io.LimitReader(peer, fileSize)` through
`Store.WriteDecrypt`, signal `CloseStream`; a decrypt error aborts the
call (`return nil, err`).  Returns the filesystem, the event trace and
whether the loop finished without error. -/
def getLoop (srv : FileServer) (aes : List Byte → BlockCipher) (key : String)
    (peerReply : String → Nat × List Byte) :
    FS → List String → FS × List NetEvent × Bool
  | fs, [] => (fs, [], true)
  | fs, p :: ps =>
    let r := peerReply p
    let w := srv.store.WriteDecrypt aes srv.EncKey fs srv.ID key
      (r.2.take r.1)
    match w.1 with
    | none => (w.2, [NetEvent.readSizeStream p r.1], false)
    | some _ =>
      let rest := getLoop srv aes key peerReply w.2 ps
      (rest.1,
        NetEvent.readSizeStream p r.1 :: NetEvent.closeStream p :: rest.2.1,
        rest.2.2)

/-- `FileServer.Get`: local read when present; otherwise broadcast
`GetFile{ID, hashKey key}` (a message tag and the encoded message to every
peer), wait the fixed delay, then run the per-peer receive loop and read
the ingested file locally. -/
def FileServer.Get (srv : FileServer) (aes : List Byte → BlockCipher)
    (md5 : List Byte → List Byte) (fs : FS)
    (peerReply : String → Nat × List Byte) (key : String) :
    Option (List Byte) × FS × List NetEvent :=
  if srv.store.Has (statFS fs) srv.ID key then
    match srv.store.Read fs srv.ID key with
    | some (_, data) => (some data, fs, [])
    | none => (none, fs, [])
  else
    let msg : MessageGetFile := { ID := srv.ID, Key := hashKey md5 key }
    let bcast := srv.peers.foldr
      (fun p acc => NetEvent.sendTag p IncomingMessage ::
        NetEvent.sendMsg p msg :: acc) []
    let lp := getLoop srv aes key peerReply fs srv.peers
    if lp.2.2 then
      match srv.store.Read lp.1 srv.ID key with
      | some (_, data) => (some data, lp.1, bcast ++ lp.2.1)
      | none => (none, lp.1, bcast ++ lp.2.1)
    else (none, lp.1, bcast ++ lp.2.1)

/-- C9: when the key is present locally, `Get` returns the local file's
contents, produces no network traffic at all — no broadcast, no peer reads
or writes, no stream signals — and leaves the filesystem (and the server
state, which it never touches) unchanged. -/
theorem c9_get_local_hit (srv : FileServer) (aes : List Byte → BlockCipher)
    (md5 : List Byte → List Byte) (fs : FS)
    (peerReply : String → Nat × List Byte) (key : String)
    (hhas : srv.store.Has (statFS fs) srv.ID key = true) :
    ∃ data, fs (fullPathWithRoot srv.store srv.ID key) = some data ∧
      FileServer.Get srv aes md5 fs peerReply key = (some data, fs, []) := by
  cases hfs : fs (fullPathWithRoot srv.store srv.ID key) with
  | none =>
    exfalso
    simp only [Store.Has, statFS, hfs] at hhas
    exact Bool.false_ne_true hhas
  | some data =>
    refine ⟨data, rfl, ?_⟩
    simp only [FileServer.Get, hhas, if_true, Store.Read, hfs]

/-- Witness for C9: a concrete one-peer server with the file on disk. -/
theorem c9_get_local_hit_witness :
    ∃ data,
      (fun p => if p = fullPathWithRoot (Store.mk "r" CASPathTransformFunc)
          "n" "k" then some [7] else none : FS)
        (fullPathWithRoot (Store.mk "r" CASPathTransformFunc) "n" "k") =
        some data ∧
      FileServer.Get
          ⟨"n", List.replicate 32 0, Store.mk "r" CASPathTransformFunc,
            ["p"]⟩
          (fun _ _ => List.replicate 16 1) (fun _ => List.replicate 16 0)
          (fun p => if p = fullPathWithRoot
            (Store.mk "r" CASPathTransformFunc) "n" "k"
            then some [7] else none)
          (fun _ => (0, [])) "k" =
        (some data,
          fun p => if p = fullPathWithRoot
            (Store.mk "r" CASPathTransformFunc) "n" "k"
            then some [7] else none,
          []) :=
  c9_get_local_hit
    ⟨"n", List.replicate 32 0, Store.mk "r" CASPathTransformFunc, ["p"]⟩
    (fun _ _ => List.replicate 16 1) (fun _ => List.replicate 16 0)
    (fun p => if p = fullPathWithRoot (Store.mk "r" CASPathTransformFunc)
      "n" "k" then some [7] else none)
    (fun _ => (0, [])) "k" (by decide)

end GoVaultFS
